import Mathlib

/-!
Verification of the retrieval pipeline of the agentic_ai_playground repository.

The Python sources under src/src are shallowly embedded: Python strings are
lists of characters, Python ints are natural numbers or integers as needed,
fallible calls are Except values, and the mutable Chroma collection is an
explicit list of entries threaded through the functions.
-/

/-- Python strings are modelled as lists of characters. -/
abbrev PyStr := List Char

/-- The whitespace characters recognised by Python str.split and str.strip. -/
def isPySpace (c : Char) : Bool :=
  c == ' ' || c == '\t' || c == '\n' || c == '\r' || c == '\x0b' || c == '\x0c'

/-- Worker for splitWords: accumulates the current word (reversed) in acc. -/
def splitWordsAux : List Char → List Char → List (List Char)
  | [], acc => if acc.isEmpty then [] else [acc.reverse]
  | c :: cs, acc =>
    if isPySpace c then
      if acc.isEmpty then splitWordsAux cs [] else acc.reverse :: splitWordsAux cs []
    else splitWordsAux cs (c :: acc)

/-- Python text.split() with no argument: split on runs of whitespace,
dropping empty pieces. -/
def splitWords (s : PyStr) : List PyStr := splitWordsAux s []

/-- Python s.strip(): drop leading and trailing whitespace. -/
def pyStrip (s : PyStr) : PyStr :=
  ((s.dropWhile isPySpace).reverse.dropWhile isPySpace).reverse

/-- Python sep.join(pieces). -/
def joinSep (sep : List Char) : List (List Char) → List Char
  | [] => []
  | [w] => w
  | w :: ws => w ++ sep ++ joinSep sep ws

/-- Python range(start, stop, step) as a list of indices; step 0 raises
ValueError, which we model as an error value. -/
def pythonRange (start stop : ℕ) (step : ℤ) : Except String (List ℕ) :=
  if step = 0 then .error "range() arg 3 must not be zero"
  else if 0 < step then
    let s := step.toNat
    .ok ((List.range ((stop - start + s - 1) / s)).map (fun i => start + s * i))
  else
    let s := (-step).toNat
    .ok ((List.range ((start - stop + s - 1) / s)).map (fun i => start - s * i))

/-- models.TextChunk: content plus word-index start and end offsets. -/
structure TextChunk where
  content : PyStr
  start_pos : ℕ
  end_pos : ℕ
  deriving DecidableEq

/-- The body evaluated for one loop index of create_chunks: slice
words[i : i + chunk_size], join with spaces, and keep the chunk only if the
joined content has a non-empty strip. -/
def chunkAt (words : List PyStr) (chunk_size : ℕ) (i : ℕ) : Option TextChunk :=
  let chunk_words := (words.drop i).take chunk_size
  let chunk_content := joinSep [' '] chunk_words
  if pyStrip chunk_content ≠ [] then
    some ⟨chunk_content, i, min (i + chunk_size) words.length⟩
  else none

/-- document_processor.create_chunks: split into words, then walk
range(0, len(words), chunk_size - overlap) collecting non-blank windows.
The Except result models the ValueError raised by range on a zero step. -/
def create_chunks (text : PyStr) (chunk_size : ℕ) (overlap : ℕ) :
    Except String (List TextChunk) :=
  let words := splitWords text
  match pythonRange 0 words.length ((chunk_size : ℤ) - (overlap : ℤ)) with
  | .error e => .error e
  | .ok idxs => .ok (idxs.filterMap (chunkAt words chunk_size))

/-! ### Lemmas about words, joining and stripping -/

lemma splitWordsAux_sound (s : List Char) :
    ∀ acc, (∀ c ∈ acc, isPySpace c = false) →
    ∀ w ∈ splitWordsAux s acc, w ≠ [] ∧ ∀ c ∈ w, isPySpace c = false := by
  induction s with
  | nil =>
    intro acc hacc w hw
    simp only [splitWordsAux] at hw
    by_cases hA : acc.isEmpty
    · simp [hA] at hw
    · simp [hA] at hw
      subst hw
      refine ⟨?_, ?_⟩
      · intro h
        have : acc = [] := by simpa using congrArg List.reverse h
        simp [this] at hA
      · intro c hc
        exact hacc c (by simpa using hc)
  | cons a as ih =>
    intro acc hacc w hw
    simp only [splitWordsAux] at hw
    by_cases hsp : isPySpace a
    · simp only [hsp, if_true] at hw
      by_cases hA : acc.isEmpty
      · simp only [hA, if_true] at hw
        exact ih [] (by simp) w hw
      · simp only [hA, if_false] at hw
        rcases List.mem_cons.1 hw with hw | hw
        · subst hw
          refine ⟨?_, ?_⟩
          · intro h
            have : acc = [] := by simpa using congrArg List.reverse h
            simp [this] at hA
          · intro c hc
            exact hacc c (by simpa using hc)
        · exact ih [] (by simp) w hw
    · simp only [hsp, if_false] at hw
      refine ih (a :: acc) ?_ w hw
      intro c hc
      rcases List.mem_cons.1 hc with h | h
      · subst h; simpa using hsp
      · exact hacc c h

/-- Every word produced by splitWords is non-empty and free of whitespace. -/
lemma splitWords_sound (s : PyStr) :
    ∀ w ∈ splitWords s, w ≠ [] ∧ ∀ c ∈ w, isPySpace c = false :=
  splitWordsAux_sound s [] (by simp)

/-- A string containing a non-whitespace character has a non-empty strip. -/
lemma pyStrip_ne_nil {l : PyStr} {c : Char} (hc : c ∈ l) (hs : isPySpace c = false) :
    pyStrip l ≠ [] := by
  intro h
  unfold pyStrip at h
  have h1 : (l.dropWhile isPySpace).reverse.dropWhile isPySpace = [] := by
    simpa using congrArg List.reverse h
  have h2 : ∀ a ∈ (l.dropWhile isPySpace).reverse, isPySpace a := by
    exact List.dropWhile_eq_nil_iff.mp h1
  have h3 : c ∈ l.dropWhile isPySpace := by
    have hsplit : l.takeWhile isPySpace ++ l.dropWhile isPySpace = l :=
      List.takeWhile_append_dropWhile isPySpace l
    rw [← hsplit] at hc
    rcases List.mem_append.1 hc with h | h
    · exact absurd (List.mem_takeWhile_imp h) (by simp [hs])
    · exact h
  have := h2 c (by simpa using h3)
  simp [hs] at this

/-- A member of the first piece is a member of the joined string. -/
lemma mem_joinSep_head {sep w : List Char} {ws : List PyStr} {c : Char}
    (hc : c ∈ w) : c ∈ joinSep sep (w :: ws) := by
  cases ws with
  | nil => simpa [joinSep] using hc
  | cons x xs => simp [joinSep, hc]

/-- A non-empty all-good window joins to a string with non-empty strip. -/
lemma slice_strip_ne {words : List PyStr} (cs i : ℕ)
    (hgood : ∀ w ∈ words, w ≠ [] ∧ ∀ c ∈ w, isPySpace c = false)
    (hcs : 0 < cs) (hi : i < words.length) :
    pyStrip (joinSep [' '] ((words.drop i).take cs)) ≠ [] := by
  obtain ⟨w, hdrop⟩ : ∃ x, words.drop i = x :: words.drop (i + 1) :=
    ⟨words.get ⟨i, hi⟩, by rw [List.drop_eq_getElem_cons hi]; rfl⟩
  have htake : (words.drop i).take cs = w :: (words.drop (i+1)).take (cs - 1) := by
    rw [hdrop]
    cases cs with
    | zero => omega
    | succ m => simp
  have hw : w ∈ words := by
    have : w ∈ words.drop i := by rw [hdrop]; exact List.mem_cons_self _ _
    exact List.mem_of_mem_drop this
  obtain ⟨hne, hns⟩ := hgood w hw
  obtain ⟨c, cs', rfl⟩ : ∃ c cs', w = c :: cs' := by
    cases w with
    | nil => exact absurd rfl hne
    | cons c cs' => exact ⟨c, cs', rfl⟩
  have hcj : c ∈ joinSep [' '] ((words.drop i).take cs) := by
    rw [htake]
    exact mem_joinSep_head (List.mem_cons_self _ _)
  exact pyStrip_ne_nil hcj (hns c (List.mem_cons_self _ _))

/-! ### Normal form of create_chunks for a positive stride -/

/-- The chunk produced at loop iteration j when the stride is s. -/
def chunkOf (words : List PyStr) (cs s j : ℕ) : TextChunk :=
  ⟨joinSep [' '] ((words.drop (s * j)).take cs), s * j, min (s * j + cs) words.length⟩

lemma filterMap_eq_map_of {α β : Type} {l : List α} {f : α → Option β} {g : α → β}
    (h : ∀ a ∈ l, f a = some (g a)) : l.filterMap f = l.map g := by
  induction l with
  | nil => rfl
  | cons a as ih =>
    simp only [List.filterMap_cons, List.map_cons, h a (List.mem_cons_self a as)]
    rw [ih (fun a ha => h a (List.mem_cons_of_mem _ ha))]

lemma lt_len_of_lt_ceil {j len s : ℕ} (hs : 0 < s) (hj : j < (len + s - 1) / s) :
    s * j < len := by
  have h1 : (j + 1) * s ≤ len + s - 1 := (Nat.le_div_iff_mul_le hs).mp hj
  have h2 : s * j + s = (j + 1) * s := by ring
  omega

lemma chunkAt_eq_some {words : List PyStr} {cs : ℕ} (i : ℕ)
    (hgood : ∀ w ∈ words, w ≠ [] ∧ ∀ c ∈ w, isPySpace c = false)
    (hcs : 0 < cs) (hi : i < words.length) :
    chunkAt words cs i = some ⟨joinSep [' '] ((words.drop i).take cs), i,
      min (i + cs) words.length⟩ := by
  unfold chunkAt
  simp only [if_pos (slice_strip_ne cs i hgood hcs hi)]

lemma create_chunks_normal (text : PyStr) (cs ov : ℕ) (h : ov < cs) :
    create_chunks text cs ov =
      .ok ((List.range (((splitWords text).length + (cs - ov) - 1) / (cs - ov))).map
        (chunkOf (splitWords text) cs (cs - ov))) := by
  have hs : 0 < cs - ov := by omega
  have hstep : ((cs : ℤ) - (ov : ℤ)) = ((cs - ov : ℕ) : ℤ) := by
    omega
  unfold create_chunks pythonRange
  rw [hstep]
  have hne : ((cs - ov : ℕ) : ℤ) ≠ 0 := by exact_mod_cast Nat.pos_iff_ne_zero.mp hs
  have hpos : (0 : ℤ) < ((cs - ov : ℕ) : ℤ) := by exact_mod_cast hs
  simp only [if_neg hne, if_pos hpos, Int.toNat_natCast]
  congr 1
  rw [List.filterMap_map]
  refine filterMap_eq_map_of ?_
  intro j hj
  have hj' : j < ((splitWords text).length + (cs - ov) - 1) / (cs - ov) := by
    simpa [Nat.sub_zero] using List.mem_range.mp hj
  have hlt : (cs - ov) * j < (splitWords text).length := lt_len_of_lt_ceil hs hj'
  have := @chunkAt_eq_some (splitWords text) cs
    ((cs - ov) * j) (splitWords_sound text) (by omega) hlt
  simpa [Function.comp, chunkOf, Nat.zero_add] using this

/-- With overlap strictly greater than chunk size the stride is negative, the
descending Python range starting at 0 is empty, and no chunk is produced. -/
lemma create_chunks_overlap_gt (text : PyStr) (cs ov : ℕ) (h : cs < ov) :
    create_chunks text cs ov = .ok [] := by
  have hne : ¬((cs : ℤ) - (ov : ℤ) = 0) := by omega
  have hnp : ¬((0 : ℤ) < (cs : ℤ) - (ov : ℤ)) := by omega
  unfold create_chunks pythonRange
  simp only [if_neg hne, if_neg hnp]
  have ht : 1 ≤ (-((cs : ℤ) - (ov : ℤ))).toNat := by omega
  have hz : (0 - (splitWords text).length + (-((cs : ℤ) - (ov : ℤ))).toNat - 1) /
      (-((cs : ℤ) - (ov : ℤ))).toNat = 0 := Nat.div_eq_of_lt (by omega)
  rw [hz]
  simp

/-- With overlap equal to chunk size the stride is zero and range raises. -/
lemma create_chunks_overlap_eq (text : PyStr) (cs : ℕ) :
    create_chunks text cs cs = .error "range() arg 3 must not be zero" := by
  unfold create_chunks pythonRange
  simp

/-- Claim C1: for overlap < chunkSize, create_chunks produces chunks whose
start offsets strictly increase by chunkSize - overlap, whose union covers
every word of the text, whose windows never exceed chunkSize words and stay
inside the text, and none of which is whitespace-only. -/
theorem C1_create_chunks_cover (text : PyStr) (cs ov : ℕ) (h : ov < cs) :
    ∃ chunks, create_chunks text cs ov = .ok chunks ∧
      List.Chain' (fun a b => b.start_pos = a.start_pos + (cs - ov)) chunks ∧
      (∀ k < (splitWords text).length, ∃ c ∈ chunks, c.start_pos ≤ k ∧ k < c.end_pos) ∧
      (∀ c ∈ chunks, c.start_pos < c.end_pos ∧ c.end_pos ≤ c.start_pos + cs ∧
        c.end_pos ≤ (splitWords text).length) ∧
      (∀ c ∈ chunks, pyStrip c.content ≠ []) := by
  have hs : 0 < cs - ov := by omega
  have hcs : 0 < cs := by omega
  refine ⟨_, create_chunks_normal text cs ov h, ?_, ?_, ?_, ?_⟩
  · rw [List.chain'_map, List.chain'_iff_get]
    intro i hi
    simp only [List.get_eq_getElem, List.getElem_range, chunkOf]
    ring
  · intro k hk
    set len := (splitWords text).length with hlen
    set s := cs - ov with hsdef
    have hlen1 : 1 ≤ len := by omega
    have hn : k / s < (len + s - 1) / s := by
      have h1 : k / s ≤ (len - 1) / s := Nat.div_le_div_right (by omega)
      have h2 : len + s - 1 = (len - 1) + s := by omega
      have h3 : (len + s - 1) / s = (len - 1) / s + 1 := by
        rw [h2]; exact Nat.add_div_right _ hs
      omega
    refine ⟨chunkOf (splitWords text) cs s (k / s), ?_, ?_, ?_⟩
    · exact List.mem_map_of_mem _ (List.mem_range.mpr hn)
    · simpa [chunkOf, Nat.mul_comm] using Nat.div_mul_le_self k s
    · have hmod := Nat.div_add_mod k s
      have hmlt : k % s < s := Nat.mod_lt _ hs
      have hk1 : k < s * (k / s) + cs := by omega
      simpa [chunkOf, Nat.lt_min] using ⟨hk1, hk⟩
  · intro c hc
    obtain ⟨j, hj, rfl⟩ := List.mem_map.1 hc
    have hj' := List.mem_range.1 hj
    have hlt := lt_len_of_lt_ceil hs hj'
    refine ⟨?_, ?_, ?_⟩
    · simp only [chunkOf, Nat.lt_min]
      exact ⟨by omega, hlt⟩
    · exact Nat.min_le_left _ _
    · exact Nat.min_le_right _ _
  · intro c hc
    obtain ⟨j, hj, rfl⟩ := List.mem_map.1 hc
    have hj' := List.mem_range.1 hj
    have hlt := lt_len_of_lt_ceil hs hj'
    exact slice_strip_ne cs _ (splitWords_sound text) hcs hlt

/-- Witness for claim C1 at a concrete text and window parameters. -/
theorem C1_create_chunks_cover_witness :
    ∃ chunks, create_chunks ("hello world again".toList) 2 1 = .ok chunks ∧
      List.Chain' (fun a b => b.start_pos = a.start_pos + (2 - 1)) chunks ∧
      (∀ k < (splitWords ("hello world again".toList)).length,
        ∃ c ∈ chunks, c.start_pos ≤ k ∧ k < c.end_pos) ∧
      (∀ c ∈ chunks, c.start_pos < c.end_pos ∧ c.end_pos ≤ c.start_pos + 2 ∧
        c.end_pos ≤ (splitWords ("hello world again".toList)).length) ∧
      (∀ c ∈ chunks, pyStrip c.content ≠ []) :=
  C1_create_chunks_cover ("hello world again".toList) 2 1 (by decide)

/-- Claim C10: create_chunks is total; when overlap exceeds chunkSize it
returns the empty chunk list, when overlap equals chunkSize the zero stride
makes range raise (modelled as an error value), and any successfully produced
chunk list has strictly increasing start offsets (no backward-seeking
windows). -/
theorem C10_create_chunks_degenerate :
    (∀ text cs ov, cs < ov → create_chunks text cs ov = .ok []) ∧
    (∀ text cs, create_chunks text cs cs = .error "range() arg 3 must not be zero") ∧
    (∀ text cs ov chunks, create_chunks text cs ov = .ok chunks →
      List.Chain' (fun a b => a.start_pos < b.start_pos) chunks) := by
  refine ⟨create_chunks_overlap_gt, create_chunks_overlap_eq, ?_⟩
  intro text cs ov chunks hok
  rcases Nat.lt_trichotomy ov cs with h | h | h
  · rw [create_chunks_normal text cs ov h] at hok
    have hs : 0 < cs - ov := by omega
    obtain rfl : chunks = _ := by
      cases hok
      rfl
    rw [List.chain'_map, List.chain'_iff_get]
    intro i hi
    simp only [List.get_eq_getElem, List.getElem_range, chunkOf]
    have : (cs - ov) * i < (cs - ov) * (i + 1) := by
      have h1 : (cs - ov) * i + (cs - ov) = (cs - ov) * (i + 1) := by ring
      omega
    omega
  · subst h
    rw [create_chunks_overlap_eq] at hok
    cases hok
  · rw [create_chunks_overlap_gt text cs ov h] at hok
    cases hok
    exact List.chain'_nil

/-- Witness for claim C10 with overlap greater than chunk size. -/
theorem C10_create_chunks_degenerate_witness :
    create_chunks ("a b c".toList) 1 2 = .ok [] :=
  C10_create_chunks_degenerate.1 ("a b c".toList) 1 2 (by decide)

/-! ### Task classifier (llm_provider.TaskClassifier) -/

/-- models.TaskType. -/
inductive TaskType where
  | DOCUMENT_QUERY
  | WEB_SEARCH
  | HYBRID_SEARCH
  | SUMMARIZATION
  | ANALYSIS
  deriving DecidableEq

/-- The string value of a TaskType member. -/
def taskTypeValue : TaskType → String
  | .DOCUMENT_QUERY => "document_query"
  | .WEB_SEARCH => "web_search"
  | .HYBRID_SEARCH => "hybrid_search"
  | .SUMMARIZATION => "summarization"
  | .ANALYSIS => "analysis"

/-- Does the needle occur at the start of the haystack. -/
def leadsWith : List Char → List Char → Bool
  | [], _ => true
  | _ :: _, [] => false
  | a :: as, b :: bs => a == b && leadsWith as bs

/-- Python substring membership: needle in haystack. -/
def hasSub (needle : List Char) : List Char → Bool
  | [] => needle.isEmpty
  | s :: rest => leadsWith needle (s :: rest) || hasSub needle rest

/-- The summarization cue words of TaskClassifier.classify. -/
def summarKeywords : List PyStr := ["summarize".toList, "summary".toList, "overview".toList]

/-- The freshness and market cue words. -/
def webKeywords : List PyStr := ["current".toList, "latest".toList, "news".toList, "market".toList]

/-- The document and contract cue words. -/
def docKeywords : List PyStr := ["contract".toList, "document".toList, "clause".toList, "agreement".toList]

/-- TaskClassifier.classify: lowercase the query and test the ordered keyword
lists with substring membership; the first matching list wins and the default
is HYBRID_SEARCH. -/
def classify (query : PyStr) : TaskType :=
  let query_lower := query.map Char.toLower
  if summarKeywords.any (fun w => hasSub w query_lower) then .SUMMARIZATION
  else if webKeywords.any (fun w => hasSub w query_lower) then .WEB_SEARCH
  else if docKeywords.any (fun w => hasSub w query_lower) then .DOCUMENT_QUERY
  else .HYBRID_SEARCH

/-- Claim C6: classify is a pure function of the lowercased question testing
ordered keyword lists with summarization cues first and HYBRID_SEARCH as the
default; the four example questions classify as stated, classify never
returns ANALYSIS, and a summarization cue always wins. -/
theorem C6_classify_examples :
    classify ("Please summarize this contract".toList) = .SUMMARIZATION ∧
    classify ("What's the current market price?".toList) = .WEB_SEARCH ∧
    classify ("Explain the termination clause in this agreement".toList) = .DOCUMENT_QUERY ∧
    classify ("Tell me about your company".toList) = .HYBRID_SEARCH ∧
    (∀ q : PyStr, classify q ≠ .ANALYSIS) ∧
    (∀ q : PyStr,
      summarKeywords.any (fun w => hasSub w (q.map Char.toLower)) = true →
      classify q = .SUMMARIZATION) := by
  refine ⟨by decide, by decide, by decide, by decide, ?_, ?_⟩
  · intro q
    unfold classify
    dsimp only
    split <;> try simp
    split <;> try simp
    split <;> simp
  · intro q h
    unfold classify
    dsimp only
    rw [if_pos h]

/-- Witness for claim C6: a query containing a summarization cue. -/
theorem C6_classify_examples_witness :
    classify ("give me a summary of it".toList) = .SUMMARIZATION :=
  C6_classify_examples.2.2.2.2.2 ("give me a summary of it".toList) (by decide)

/-! ### Vector store (vector_store.VectorStore) -/

/-- An embedding vector produced by the sentence encoder. -/
abbrev Embedding := List ℚ

/-- The fields of models.Document consumed by the vector store. -/
structure VDocument where
  id : String
  title : String
  file_name : String
  content : PyStr
  deriving DecidableEq

/-- One entry of the Chroma collection: chunk id, embedding, chunk text and
the metadata recorded by add_document. -/
structure Entry where
  id : String
  embedding : Embedding
  document : PyStr
  doc_id : String
  document_title : String
  filename : String
  deriving DecidableEq

/-- The persistent collection, as its list of entries in insertion order. -/
abbrev Store := List Entry

/-- The loop of VectorStore.add_document over enumerate(chunks): skip a chunk
whose id already exists, otherwise embed and insert. An embedding failure
aborts the loop and the surrounding handler keeps the entries added so far. -/
def addLoop (enc : PyStr → Except String Embedding) (doc : VDocument) :
    ℕ → List TextChunk → Store → Store
  | _, [], st => st
  | i, chunk :: rest, st =>
    let chunk_id := doc.id ++ "_chunk_" ++ toString i
    if st.any (fun e => e.id == chunk_id) then addLoop enc doc (i + 1) rest st
    else
      match enc chunk.content with
      | .error _ => st
      | .ok emb => addLoop enc doc (i + 1) rest
          (st ++ [⟨chunk_id, emb, chunk.content, doc.id, doc.title, doc.file_name⟩])

/-- VectorStore.add_document: chunk the content and insert the new chunks;
every failure is caught, keeping whatever was inserted before it. -/
def add_document (enc : PyStr → Except String Embedding) (chunk_size overlap : ℕ)
    (doc : VDocument) (st : Store) : Store :=
  match create_chunks doc.content chunk_size overlap with
  | .error _ => st
  | .ok chunks => addLoop enc doc 0 chunks st

lemma addLoop_append (enc : PyStr → Except String Embedding) (doc : VDocument) :
    ∀ (l : List TextChunk) (i : ℕ) (st : Store),
      ∃ tl, addLoop enc doc i l st = st ++ tl := by
  intro l
  induction l with
  | nil => intro i st; exact ⟨[], by simp [addLoop]⟩
  | cons ch rest ih =>
    intro i st
    by_cases hmem : st.any (fun e => e.id == doc.id ++ "_chunk_" ++ toString i)
    · have hstep : addLoop enc doc i (ch :: rest) st = addLoop enc doc (i + 1) rest st := by
        simp only [addLoop]; rw [if_pos hmem]
      rw [hstep]
      exact ih (i + 1) st
    · cases henc : enc ch.content with
      | error e =>
        have hstep : addLoop enc doc i (ch :: rest) st = st := by
          simp only [addLoop]; rw [if_neg hmem, henc]
        exact ⟨[], by rw [hstep]; simp⟩
      | ok emb =>
        have hstep : addLoop enc doc i (ch :: rest) st = addLoop enc doc (i + 1) rest
            (st ++ [⟨doc.id ++ "_chunk_" ++ toString i, emb, ch.content,
              doc.id, doc.title, doc.file_name⟩]) := by
          simp only [addLoop]; rw [if_neg hmem, henc]
        obtain ⟨tl, htl⟩ := ih (i + 1)
          (st ++ [⟨doc.id ++ "_chunk_" ++ toString i, emb, ch.content,
            doc.id, doc.title, doc.file_name⟩])
        refine ⟨⟨doc.id ++ "_chunk_" ++ toString i, emb, ch.content,
          doc.id, doc.title, doc.file_name⟩ :: tl, ?_⟩
        rw [hstep, htl]
        simp

lemma mem_addLoop_of_mem (enc : PyStr → Except String Embedding) (doc : VDocument)
    {l : List TextChunk} {i : ℕ} {st : Store} {e : Entry} (he : e ∈ st) :
    e ∈ addLoop enc doc i l st := by
  obtain ⟨tl, htl⟩ := addLoop_append enc doc l i st
  rw [htl]
  exact List.mem_append_left _ he

lemma addLoop_id_format (enc : PyStr → Except String Embedding) (doc : VDocument) :
    ∀ (l : List TextChunk) (i : ℕ) (st : Store) (e : Entry),
      e ∈ addLoop enc doc i l st →
      e ∈ st ∨ ∃ j : ℕ, e.id = doc.id ++ "_chunk_" ++ toString j := by
  intro l
  induction l with
  | nil => intro i st e he; exact Or.inl he
  | cons ch rest ih =>
    intro i st e he
    simp only [addLoop] at he
    by_cases hmem : st.any (fun x => x.id == doc.id ++ "_chunk_" ++ toString i)
    · rw [if_pos hmem] at he
      exact ih (i + 1) st e he
    · rw [if_neg hmem] at he
      cases henc : enc ch.content with
      | error msg => rw [henc] at he; exact Or.inl he
      | ok emb =>
        rw [henc] at he
        rcases ih (i + 1) _ e he with hst | hfmt
        · rcases List.mem_append.1 hst with h | h
          · exact Or.inl h
          · refine Or.inr ⟨i, ?_⟩
            have : e = ⟨doc.id ++ "_chunk_" ++ toString i, emb, ch.content,
                doc.id, doc.title, doc.file_name⟩ := by simpa using h
            rw [this]
        · exact Or.inr hfmt

lemma addLoop_nodup (enc : PyStr → Except String Embedding) (doc : VDocument) :
    ∀ (l : List TextChunk) (i : ℕ) (st : Store),
      (st.map Entry.id).Nodup → ((addLoop enc doc i l st).map Entry.id).Nodup := by
  intro l
  induction l with
  | nil => intro i st h; simpa [addLoop] using h
  | cons ch rest ih =>
    intro i st h
    simp only [addLoop]
    by_cases hmem : st.any (fun x => x.id == doc.id ++ "_chunk_" ++ toString i)
    · rw [if_pos hmem]; exact ih (i + 1) st h
    · rw [if_neg hmem]
      cases henc : enc ch.content with
      | error msg => exact h
      | ok emb =>
        refine ih (i + 1) _ ?_
        have hnot : ∀ x ∈ st, ¬ x.id = doc.id ++ "_chunk_" ++ toString i := by
          intro x hx hxe
          apply hmem
          rw [List.any_eq_true]
          exact ⟨x, hx, by simp [hxe]⟩
        simp only [List.map_append, List.map_cons, List.map_nil]
        simpa [List.nodup_append] using ⟨h, hnot⟩

lemma addLoop_idem (enc : PyStr → Except String Embedding) (doc : VDocument) :
    ∀ (l : List TextChunk) (i : ℕ) (st : Store),
      addLoop enc doc i l (addLoop enc doc i l st) = addLoop enc doc i l st := by
  intro l
  induction l with
  | nil => intro i st; simp [addLoop]
  | cons ch rest ih =>
    intro i st
    by_cases hmem : st.any (fun x => x.id == doc.id ++ "_chunk_" ++ toString i)
    · have hstep : addLoop enc doc i (ch :: rest) st = addLoop enc doc (i + 1) rest st := by
        simp only [addLoop]; rw [if_pos hmem]
      rw [hstep]
      have hmem2 : (addLoop enc doc (i + 1) rest st).any
          (fun x => x.id == doc.id ++ "_chunk_" ++ toString i) := by
        rw [List.any_eq_true] at hmem ⊢
        obtain ⟨x, hx, hxp⟩ := hmem
        exact ⟨x, mem_addLoop_of_mem enc doc hx, hxp⟩
      conv_lhs => simp only [addLoop]
      rw [if_pos hmem2]
      exact ih (i + 1) _
    · cases henc : enc ch.content with
      | error msg =>
        have hstep : addLoop enc doc i (ch :: rest) st = st := by
          simp only [addLoop]; rw [if_neg hmem, henc]
        rw [hstep, hstep]
      | ok emb =>
        set e0 : Entry := ⟨doc.id ++ "_chunk_" ++ toString i, emb, ch.content,
          doc.id, doc.title, doc.file_name⟩ with he0
        have hstep : addLoop enc doc i (ch :: rest) st
            = addLoop enc doc (i + 1) rest (st ++ [e0]) := by
          simp only [addLoop]; rw [if_neg hmem, henc]
        rw [hstep]
        have hmem2 : (addLoop enc doc (i + 1) rest (st ++ [e0])).any
            (fun x => x.id == doc.id ++ "_chunk_" ++ toString i) := by
          rw [List.any_eq_true]
          refine ⟨e0, mem_addLoop_of_mem enc doc (by simp), by simp [he0]⟩
        conv_lhs => simp only [addLoop]
        rw [if_pos hmem2]
        exact ih (i + 1) _

/-- Claim C2: chunk ids are deterministically documentId_chunk_index, an
already-indexed id is skipped, so add_document preserves distinctness of ids
and re-adding the same document changes nothing. -/
theorem C2_add_document_idempotent :
    (∀ enc chunk_size overlap doc st (e : Entry),
      e ∈ add_document enc chunk_size overlap doc st →
      e ∈ st ∨ ∃ i : ℕ, e.id = doc.id ++ "_chunk_" ++ toString i) ∧
    (∀ enc chunk_size overlap doc st,
      (st.map Entry.id).Nodup →
      ((add_document enc chunk_size overlap doc st).map Entry.id).Nodup) ∧
    (∀ enc chunk_size overlap doc st,
      add_document enc chunk_size overlap doc (add_document enc chunk_size overlap doc st)
        = add_document enc chunk_size overlap doc st) := by
  refine ⟨?_, ?_, ?_⟩
  · intro enc cs ov doc st e he
    unfold add_document at he
    cases hc : create_chunks doc.content cs ov with
    | error msg => rw [hc] at he; exact Or.inl he
    | ok chunks => rw [hc] at he; exact addLoop_id_format enc doc chunks 0 st e he
  · intro enc cs ov doc st h
    unfold add_document
    cases hc : create_chunks doc.content cs ov with
    | error msg => exact h
    | ok chunks => exact addLoop_nodup enc doc chunks 0 st h
  · intro enc cs ov doc st
    unfold add_document
    cases hc : create_chunks doc.content cs ov with
    | error msg => rfl
    | ok chunks => exact addLoop_idem enc doc chunks 0 st

/-- Witness for claim C2: id distinctness after a concrete insertion. -/
theorem C2_add_document_idempotent_witness :
    ((add_document (fun _ => Except.ok [])
        2 0 ⟨"d1", "Title", "t.txt", "hello world again".toList⟩ []).map Entry.id).Nodup :=
  C2_add_document_idempotent.2.1 (fun _ => Except.ok [])
    2 0 ⟨"d1", "Title", "t.txt", "hello world again".toList⟩ [] (by simp)

/-! ### Orchestrator document loading (core.AgenticAISystem.load_documents) -/

/-- Python dict assignment d[k] = v on an association list: replace an
existing binding in place, otherwise append. -/
def dictInsert {α : Type} (d : List (String × α)) (k : String) (v : α) :
    List (String × α) :=
  if d.any (fun p => p.1 == k) then
    d.map (fun p => if p.1 == k then (p.1, v) else p)
  else d ++ [(k, v)]

/-- Python d.get(k): the first binding of k, if any. -/
def dictGet {α : Type} (d : List (String × α)) (k : String) : Option α :=
  (d.find? (fun p => p.1 == k)).map (fun p => p.2)

/-- The per-file success message recorded by load_documents, showing the
document word count. -/
def successMsg (doc : VDocument) : String :=
  "[OK] Success: " ++ toString (splitWords doc.content).length ++ " words"

/-- The per-file error message recorded by load_documents. -/
def errorMsg (e : String) : String := "[ERROR] Error: " ++ e

/-- The per-file loop of AgenticAISystem.load_documents: process the file,
register the document, index it in the vector store, and record an outcome
string; a processing failure records an error entry and the batch continues. -/
def load_documents (procF : String → Except String VDocument)
    (enc : PyStr → Except String Embedding) (chunk_size overlap : ℕ) :
    List String → List (String × String) → List (String × VDocument) → Store →
      List (String × String) × List (String × VDocument) × Store
  | [], results, docs, st => (results, docs, st)
  | f :: rest, results, docs, st =>
    match procF f with
    | .ok d => load_documents procF enc chunk_size overlap rest
        (results ++ [(f, successMsg d)]) (dictInsert docs d.id d)
        (add_document enc chunk_size overlap d st)
    | .error e => load_documents procF enc chunk_size overlap rest
        (results ++ [(f, errorMsg e)]) docs st

lemma load_documents_results_persist (procF : String → Except String VDocument)
    (enc : PyStr → Except String Embedding) (chunk_size overlap : ℕ) :
    ∀ (files : List String) (results : List (String × String))
      (docs : List (String × VDocument)) (st : Store) (x : String × String),
      x ∈ results →
      x ∈ (load_documents procF enc chunk_size overlap files results docs st).1 := by
  intro files
  induction files with
  | nil => intro results docs st x hx; simpa [load_documents] using hx
  | cons f rest ih =>
    intro results docs st x hx
    simp only [load_documents]
    cases procF f with
    | ok d => exact ih _ _ _ x (List.mem_append_left _ hx)
    | error e => exact ih _ _ _ x (List.mem_append_left _ hx)

lemma addLoop_const_error (msg : String) (doc : VDocument) :
    ∀ (l : List TextChunk) (i : ℕ) (st : Store),
      addLoop (fun _ => Except.error msg) doc i l st = st := by
  intro l
  induction l with
  | nil => intro i st; rfl
  | cons ch rest ih =>
    intro i st
    by_cases hmem : st.any (fun e => e.id == doc.id ++ "_chunk_" ++ toString i)
    · have hstep : addLoop (fun _ => Except.error msg) doc i (ch :: rest) st
          = addLoop (fun _ => Except.error msg) doc (i + 1) rest st := by
        simp only [addLoop]; rw [if_pos hmem]
      rw [hstep]
      exact ih (i + 1) st
    · simp only [addLoop]
      rw [if_neg hmem]

/-- Claim C9: every failure inside add_document is swallowed: with an encoder
that always fails the store is returned unchanged and no exception escapes,
and load_documents still records a success entry for any file whose document
processing succeeded. -/
theorem C9_indexing_failures_swallowed :
    (∀ (msg : String) (chunk_size overlap : ℕ) (doc : VDocument) (st : Store),
      add_document (fun _ => Except.error msg) chunk_size overlap doc st = st) ∧
    (∀ (procF : String → Except String VDocument)
       (enc : PyStr → Except String Embedding)
       (chunk_size overlap : ℕ) (files : List String) (st : Store)
       (f : String) (d : VDocument),
      f ∈ files → procF f = .ok d →
      (f, successMsg d) ∈
        (load_documents procF enc chunk_size overlap files [] [] st).1) := by
  constructor
  · intro msg cs ov doc st
    unfold add_document
    cases hc : create_chunks doc.content cs ov with
    | error e => rfl
    | ok chunks => exact addLoop_const_error msg doc chunks 0 st
  · intro procF enc cs ov files st f d hf hproc
    suffices h : ∀ (files : List String) (results : List (String × String))
        (docs : List (String × VDocument)) (st : Store),
        f ∈ files →
        (f, successMsg d) ∈ (load_documents procF enc cs ov files results docs st).1 by
      exact h files [] [] st hf
    intro files'
    induction files' with
    | nil => intro results docs st h; cases h
    | cons g rest ih =>
      intro results docs st hmem
      rcases List.mem_cons.1 hmem with heq | htail
      · subst heq
        simp only [load_documents]
        rw [hproc]
        exact load_documents_results_persist procF enc cs ov rest _ _ _ _
          (List.mem_append_right _ (List.mem_singleton.mpr rfl))
      · simp only [load_documents]
        cases procF g with
        | ok d2 => exact ih _ _ _ htail
        | error e => exact ih _ _ _ htail

/-- Witness for claim C9: a file that processes fine is recorded as a success
even though every embedding call fails and nothing is indexed. -/
theorem C9_indexing_failures_swallowed_witness :
    ("t.txt", successMsg ⟨"d1", "Title", "t.txt", "hello world".toList⟩) ∈
      (load_documents (fun _ => Except.ok ⟨"d1", "Title", "t.txt", "hello world".toList⟩)
        (fun _ => Except.error "embedding backend down") 2 0 ["t.txt"] [] [] []).1 :=
  C9_indexing_failures_swallowed.2
    (fun _ => Except.ok ⟨"d1", "Title", "t.txt", "hello world".toList⟩)
    (fun _ => Except.error "embedding backend down") 2 0 ["t.txt"] []
    "t.txt" ⟨"d1", "Title", "t.txt", "hello world".toList⟩
    (List.mem_singleton.mpr rfl) rfl

/-! ### Search results (models.SearchResult), vector search and web search -/

/-- models.SourceType. -/
inductive SourceType where
  | DOCUMENT
  | WEB
  deriving DecidableEq

/-- The string value of a SourceType member. -/
def sourceTypeValue : SourceType → String
  | .DOCUMENT => "document"
  | .WEB => "web"

/-- models.SearchResult; title stands for the title property computed from
the metadata mapping (metadata title for web hits, document title for
document hits). Scores are modelled as rationals, with the float literal
0.1 modelled as 1/10 (the sign of every score considered here is the same
in float and exact arithmetic). -/
structure SearchResult where
  content : PyStr
  source : String
  score : ℚ
  title : String
  source_type : SourceType
  rank : ℕ
  deriving DecidableEq

/-- Python s.strip() on a String. -/
def pyStripS (s : String) : String := String.mk (pyStrip s.data)

/-- The metadata of one row returned by collection.query. -/
structure RowMeta where
  doc_id : String
  document_title : String
  filename : String
  deriving DecidableEq

/-- One row returned by collection.query: chunk text, metadata, distance. -/
structure QueryRow where
  document : PyStr
  metadata : RowMeta
  distance : ℚ
  deriving DecidableEq

/-- The enumerated conversion loop of VectorStore.search: similarity is
clamped to max(0, 1 - distance) and rank is the enumeration index plus 1. -/
def vsLoop : ℕ → List QueryRow → List SearchResult
  | _, [] => []
  | i, row :: rest =>
    { content := row.document,
      source := row.metadata.filename,
      score := max 0 (1 - row.distance),
      title := row.metadata.document_title,
      source_type := .DOCUMENT,
      rank := i + 1 } :: vsLoop (i + 1) rest

/-- VectorStore.search: embed the query, query the index, convert rows; any
failure degrades to an empty result list. -/
def vs_search (embedQ : String → Except String Embedding)
    (queryIdx : Embedding → ℕ → Except String (List QueryRow))
    (query : String) (max_results : ℕ) : List SearchResult :=
  match embedQ query with
  | .error _ => []
  | .ok qe =>
    match queryIdx qe max_results with
    | .error _ => []
    | .ok rows => vsLoop 0 rows

/-- An anchor element scraped from a result page: text and optional href. -/
structure AnchorElem where
  text : String
  href : Option String
  deriving DecidableEq

/-- One div.result container of the DuckDuckGo page: optional title anchor
and optional snippet text. -/
structure ResultDiv where
  titleElem : Option AnchorElem
  snippetText : Option String
  deriving DecidableEq

/-- The enumerated parsing loop of _search_duckduckgo over the truncated
container list: a container is kept only when both the title anchor and the
snippet are present; the float score 1.0 - 0.1*i is modelled exactly. -/
def ddgLoop : ℕ → List ResultDiv → List SearchResult
  | _, [] => []
  | i, d :: rest =>
    match d.titleElem, d.snippetText with
    | some t, some s =>
      { content := (pyStripS t.text).data ++ '\n' :: (pyStripS s).data,
        source := t.href.getD "",
        score := 1 - (i : ℚ) * (1 / 10),
        title := pyStripS t.text,
        source_type := .WEB,
        rank := i + 1 } :: ddgLoop (i + 1) rest
    | _, _ => ddgLoop (i + 1) rest

/-- WebSearchProvider._search_duckduckgo, given the parsed result divs of the
fetched page: truncate to max_results, then run the enumerated loop. -/
def ddg_parse (divs : List ResultDiv) (max_results : ℕ) : List SearchResult :=
  ddgLoop 0 (divs.take max_results)

/-- An h2 element of a Bing result: its text and the optional inner anchor. -/
structure BingH2 where
  text : String
  anchor : Option AnchorElem
  deriving DecidableEq

/-- One li.b_algo container of the Bing page. -/
structure BingItem where
  h2 : Option BingH2
  caption : Option String
  deriving DecidableEq

/-- The enumerated parsing loop of _search_bing: a container is kept only
when the h2 anchor and the caption are present; ranks start at offset 11. -/
def bingLoop : ℕ → List BingItem → List SearchResult
  | _, [] => []
  | i, it :: rest =>
    match it.h2 with
    | none => bingLoop (i + 1) rest
    | some h =>
      match h.anchor, it.caption with
      | some a, some s =>
        { content := (pyStripS h.text).data ++ '\n' :: (pyStripS s).data,
          source := a.href.getD "",
          score := 1 - (i : ℚ) * (1 / 10),
          title := pyStripS h.text,
          source_type := .WEB,
          rank := i + 1 + 10 } :: bingLoop (i + 1) rest
      | _, _ => bingLoop (i + 1) rest

/-- WebSearchProvider._search_bing, given the parsed result items. -/
def bing_parse (items : List BingItem) (max_results : ℕ) : List SearchResult :=
  bingLoop 0 (items.take max_results)

lemma vsLoop_score_nonneg : ∀ (i : ℕ) (rows : List QueryRow),
    ∀ r ∈ vsLoop i rows, 0 ≤ r.score := by
  intro i rows
  induction rows generalizing i with
  | nil => intro r hr; cases hr
  | cons row rest ih =>
    intro r hr
    rcases List.mem_cons.1 hr with h | h
    · subst h; exact le_max_left _ _
    · exact ih (i + 1) r h

lemma vsLoop_score_clamped : ∀ (i : ℕ) (rows : List QueryRow),
    ∀ r ∈ vsLoop i rows, ∃ row ∈ rows, r.score = max 0 (1 - row.distance) := by
  intro i rows
  induction rows generalizing i with
  | nil => intro r hr; cases hr
  | cons row rest ih =>
    intro r hr
    rcases List.mem_cons.1 hr with h | h
    · exact ⟨row, List.mem_cons_self _ _, by rw [h]⟩
    · obtain ⟨row', hm, he⟩ := ih (i + 1) r h
      exact ⟨row', List.mem_cons_of_mem _ hm, he⟩

lemma ddgLoop_score_nonneg : ∀ (l : List ResultDiv) (i : ℕ),
    i + l.length ≤ 11 → ∀ r ∈ ddgLoop i l, 0 ≤ r.score := by
  intro l
  induction l with
  | nil => intro i hle r hr; cases hr
  | cons d rest ih =>
    intro i hle r hr
    simp only [ddgLoop] at hr
    cases ht : d.titleElem with
    | none =>
      rw [ht] at hr
      exact ih (i + 1) (by simp at hle ⊢; omega) r hr
    | some t =>
      cases hs : d.snippetText with
      | none =>
        rw [ht, hs] at hr
        exact ih (i + 1) (by simp at hle ⊢; omega) r hr
      | some s =>
        rw [ht, hs] at hr
        rcases List.mem_cons.1 hr with h | h
        · subst h
          have hi : (i : ℚ) ≤ 10 := by
            have : i ≤ 10 := by simp at hle; omega
            exact_mod_cast this
          simp only
          linarith
        · exact ih (i + 1) (by simp at hle ⊢; omega) r h

lemma bingLoop_score_nonneg : ∀ (l : List BingItem) (i : ℕ),
    i + l.length ≤ 11 → ∀ r ∈ bingLoop i l, 0 ≤ r.score := by
  intro l
  induction l with
  | nil => intro i hle r hr; cases hr
  | cons it rest ih =>
    intro i hle r hr
    obtain ⟨oh2, ocap⟩ := it
    cases oh2 with
    | none =>
      simp only [bingLoop] at hr
      exact ih (i + 1) (by simp at hle ⊢; omega) r hr
    | some h2 =>
      obtain ⟨htext, oanchor⟩ := h2
      cases oanchor with
      | none =>
        simp only [bingLoop] at hr
        exact ih (i + 1) (by simp at hle ⊢; omega) r hr
      | some a =>
        cases ocap with
        | none =>
          simp only [bingLoop] at hr
          exact ih (i + 1) (by simp at hle ⊢; omega) r hr
        | some s =>
          simp only [bingLoop] at hr
          rcases List.mem_cons.1 hr with h | h
          · subst h
            have hi : (i : ℚ) ≤ 10 := by
              have : i ≤ 10 := by simp at hle; omega
              exact_mod_cast this
            simp only
            linarith
          · exact ih (i + 1) (by simp at hle ⊢; omega) r h

lemma ddgLoop_replicate_mem (t : AnchorElem) (s : String) :
    ∀ (n k i : ℕ), k < n →
    ∃ r ∈ ddgLoop i (List.replicate n ⟨some t, some s⟩),
      r.score = 1 - ((i + k : ℕ) : ℚ) * (1 / 10) := by
  intro n
  induction n with
  | zero => intro k i hk; omega
  | succ m ih =>
    intro k i hk
    rw [List.replicate_succ]
    cases k with
    | zero =>
      refine ⟨_, List.mem_cons_self _ _, ?_⟩
      simp [ddgLoop]
    | succ k' =>
      obtain ⟨r, hr, hs⟩ := ih k' (i + 1) (by omega)
      refine ⟨r, ?_, ?_⟩
      · simp only [ddgLoop]
        exact List.mem_cons_of_mem _ hr
      · rw [hs]
        have hnk : i + 1 + k' = i + (k' + 1) := by omega
        rw [hnk]

/-- Claim C3 as stated is false: with maxResults = 12 and twelve well-formed
result containers, the DuckDuckGo parser assigns the twelfth result the
score 1 - 11/10 < 0. -/
theorem C3_negative_web_score_counterexample :
    ∃ r ∈ ddg_parse
      (List.replicate 12 ⟨some ⟨"t", some "u"⟩, some "s"⟩) 12, r.score < 0 := by
  have htake : (List.replicate 12 (⟨some ⟨"t", some "u"⟩, some "s"⟩ : ResultDiv)).take 12
      = List.replicate 12 ⟨some ⟨"t", some "u"⟩, some "s"⟩ :=
    List.take_of_length_le (by simp)
  unfold ddg_parse
  rw [htake]
  obtain ⟨r, hr, hs⟩ := ddgLoop_replicate_mem ⟨"t", some "u"⟩ "s" 12 11 0 (by omega)
  refine ⟨r, hr, ?_⟩
  rw [hs]
  norm_num

/-- Claim C3, amended: document-hit scores are the similarity clamped to
max(0, 1 - distance) and hence always non-negative, while web-parser scores
1 - i/10 are guaranteed non-negative only when maxResults is at most 11. -/
theorem C3_scores_nonneg_amended :
    (∀ embedQ queryIdx query n, ∀ r ∈ vs_search embedQ queryIdx query n, 0 ≤ r.score) ∧
    (∀ (i : ℕ) (rows : List QueryRow),
      ∀ r ∈ vsLoop i rows, ∃ row ∈ rows, r.score = max 0 (1 - row.distance)) ∧
    (∀ divs n, n ≤ 11 → ∀ r ∈ ddg_parse divs n, 0 ≤ r.score) ∧
    (∀ items n, n ≤ 11 → ∀ r ∈ bing_parse items n, 0 ≤ r.score) := by
  refine ⟨?_, vsLoop_score_clamped, ?_, ?_⟩
  · intro embedQ queryIdx query n r hr
    unfold vs_search at hr
    cases h1 : embedQ query with
    | error e => simp only [h1] at hr; cases hr
    | ok qe =>
      cases h2 : queryIdx qe n with
      | error e => simp only [h1, h2] at hr; cases hr
      | ok rows =>
        simp only [h1, h2] at hr
        exact vsLoop_score_nonneg 0 rows r hr
  · intro divs n hn r hr
    refine ddgLoop_score_nonneg (divs.take n) 0 ?_ r hr
    have := List.length_take_le n divs
    omega
  · intro items n hn r hr
    refine bingLoop_score_nonneg (items.take n) 0 ?_ r hr
    have := List.length_take_le n items
    omega

/-- Witness for amended claim C3: a concrete document hit has the clamped
non-negative score. -/
theorem C3_scores_nonneg_amended_witness :
    0 ≤ (SearchResult.mk "doc".toList "f.txt" (max 0 (1 - (1/2 : ℚ))) "T"
      SourceType.DOCUMENT 1).score :=
  C3_scores_nonneg_amended.1 (fun _ => Except.ok [])
    (fun _ _ => Except.ok [⟨"doc".toList, ⟨"d1", "T", "f.txt"⟩, 1/2⟩]) "q" 5 _ (by
      unfold vs_search vsLoop
      simp)

/-! ### Web search merge (web_search.WebSearchProvider.search) -/

/-- The outcome of one WebSearchProvider.search call together with the
request issued to the second engine (none when Bing was not queried). -/
structure WebTrace where
  results : List SearchResult
  bingReq : Option ℕ
  deriving DecidableEq

/-- The deduplication loop of search: walk the merged results in order,
keeping a result only when its source URL is unseen and the cap of
max_results kept results is not yet reached. -/
def dedupLoop (max_results : ℕ) :
    List SearchResult → List String → List SearchResult → List SearchResult
  | [], _, unique => unique
  | r :: rest, seen, unique =>
    if seen.contains r.source = false ∧ unique.length < max_results then
      dedupLoop max_results rest (r.source :: seen) (unique ++ [r])
    else dedupLoop max_results rest seen unique

/-- WebSearchProvider.search, with the two engine calls abstracted as
fallible functions of the number of requested results: DuckDuckGo first, Bing
only for the remainder and only when DuckDuckGo fell short; an engine failure
contributes zero results; then deduplicate by source with truncation. -/
def web_search (ddgF bingF : ℕ → Except String (List SearchResult))
    (max_results : ℕ) : WebTrace :=
  let results := match ddgF max_results with | .ok l => l | .error _ => []
  if results.length < max_results then
    let bingRes := match bingF (max_results - results.length) with
      | .ok l => l | .error _ => []
    ⟨dedupLoop max_results (results ++ bingRes) [] [], some (max_results - results.length)⟩
  else
    ⟨dedupLoop max_results results [] [], none⟩

/-- Modelled from the spec: deduplicate by source, keeping the first
occurrence of each source URL, without a cap. The loop of the code is proved
equal to this followed by truncation. -/
def dedupBySource : List SearchResult → List String → List SearchResult
  | [], _ => []
  | r :: rest, seen =>
    if seen.contains r.source then dedupBySource rest seen
    else r :: dedupBySource rest (r.source :: seen)

lemma dedupLoop_eq (max : ℕ) :
    ∀ (l : List SearchResult) (seen : List String) (unique : List SearchResult),
      unique.length ≤ max →
      dedupLoop max l seen unique
        = unique ++ (dedupBySource l seen).take (max - unique.length) := by
  intro l
  induction l with
  | nil => intro seen unique hle; simp [dedupLoop, dedupBySource]
  | cons r rest ih =>
    intro seen unique hle
    by_cases hc : seen.contains r.source
    · have hcond : ¬(seen.contains r.source = false ∧ unique.length < max) := by
        intro hx
        rw [hc] at hx
        exact absurd hx.1 (by decide)
      simp only [dedupLoop]
      rw [if_neg hcond]
      simp only [dedupBySource]
      rw [if_pos hc]
      exact ih seen unique hle
    · have hcf : seen.contains r.source = false := Bool.eq_false_iff.mpr hc
      by_cases hl : unique.length < max
      · simp only [dedupLoop]
        rw [if_pos ⟨hcf, hl⟩]
        rw [ih (r.source :: seen) (unique ++ [r]) (by simp; omega)]
        simp only [dedupBySource]
        rw [if_neg hc]
        have hsub : max - unique.length = (max - (unique ++ [r]).length) + 1 := by
          simp
          omega
        rw [hsub, List.take_succ_cons]
        simp
      · simp only [dedupLoop]
        rw [if_neg (by simp [hl])]
        rw [ih seen unique hle]
        simp only [dedupBySource]
        rw [if_neg hc]
        have h0 : max - unique.length = 0 := by omega
        rw [h0]
        simp

lemma dedupLoop_spec (max : ℕ) (merged : List SearchResult) :
    dedupLoop max merged [] [] = (dedupBySource merged []).take max := by
  have := dedupLoop_eq max merged [] [] (by simp)
  simpa using this

lemma dedup_sublist : ∀ (l : List SearchResult) (seen : List String),
    List.Sublist (dedupBySource l seen) l := by
  intro l
  induction l with
  | nil => intro seen; simp [dedupBySource]
  | cons r rest ih =>
    intro seen
    simp only [dedupBySource]
    by_cases hc : seen.contains r.source
    · rw [if_pos hc]
      exact (ih seen).cons r
    · rw [if_neg hc]
      exact (ih (r.source :: seen)).cons₂ r

lemma dedup_sources_not_seen : ∀ (l : List SearchResult) (seen : List String) (s : String),
    s ∈ (dedupBySource l seen).map SearchResult.source → seen.contains s = false := by
  intro l
  induction l with
  | nil => intro seen s hs; simp [dedupBySource] at hs
  | cons r rest ih =>
    intro seen s hs
    simp only [dedupBySource] at hs
    by_cases hc : seen.contains r.source
    · rw [if_pos hc] at hs
      exact ih seen s hs
    · rw [if_neg hc] at hs
      simp only [List.map_cons] at hs
      rcases List.mem_cons.1 hs with h | h
      · subst h
        simpa using hc
      · have := ih (r.source :: seen) s h
        rw [List.contains_cons] at this
        simp only [Bool.or_eq_false_iff] at this
        exact this.2

lemma dedup_sources_nodup : ∀ (l : List SearchResult) (seen : List String),
    ((dedupBySource l seen).map SearchResult.source).Nodup := by
  intro l
  induction l with
  | nil => intro seen; simp [dedupBySource]
  | cons r rest ih =>
    intro seen
    simp only [dedupBySource]
    by_cases hc : seen.contains r.source
    · rw [if_pos hc]; exact ih seen
    · rw [if_neg hc]
      simp only [List.map_cons, List.nodup_cons]
      refine ⟨?_, ih (r.source :: seen)⟩
      intro hmem
      have := dedup_sources_not_seen rest (r.source :: seen) r.source hmem
      rw [List.contains_cons] at this
      simp at this

lemma dedup_append_decomp : ∀ (l1 l2 : List SearchResult) (seen : List String),
    ∃ rest, dedupBySource (l1 ++ l2) seen = dedupBySource l1 seen ++ rest := by
  intro l1
  induction l1 with
  | nil => intro l2 seen; exact ⟨dedupBySource l2 seen, by simp [dedupBySource]⟩
  | cons r rest1 ih =>
    intro l2 seen
    simp only [List.cons_append, dedupBySource]
    by_cases hc : seen.contains r.source
    · rw [if_pos hc, if_pos hc]
      exact ih l2 seen
    · rw [if_neg hc, if_neg hc]
      obtain ⟨restx, hx⟩ := ih l2 (r.source :: seen)
      refine ⟨restx, ?_⟩
      have happ : rest1.append l2 = rest1 ++ l2 := rfl
      rw [happ, hx]
      simp

lemma mem_dedup_sources : ∀ (l : List SearchResult) (seen : List String) (s : String),
    s ∈ l.map SearchResult.source → seen.contains s = false →
    s ∈ (dedupBySource l seen).map SearchResult.source := by
  intro l
  induction l with
  | nil => intro seen s hs _; simp at hs
  | cons r rest ih =>
    intro seen s hs hseen
    simp only [List.map_cons] at hs
    simp only [dedupBySource]
    by_cases hc : seen.contains r.source
    · rw [if_pos hc]
      rcases List.mem_cons.1 hs with h | h
      · subst h
        rw [hc] at hseen
        cases hseen
      · exact ih seen s h hseen
    · rw [if_neg hc]
      simp only [List.map_cons]
      rcases List.mem_cons.1 hs with h | h
      · subst h
        exact List.mem_cons_self _ _
      · by_cases hsr : s = r.source
        · subst hsr
          exact List.mem_cons_self _ _
        · refine List.mem_cons_of_mem _ (ih (r.source :: seen) s h ?_)
          rw [List.contains_cons]
          simp only [Bool.or_eq_false_iff]
          exact ⟨by simp [hsr], hseen⟩

lemma web_search_ok_both (ddgF bingF : ℕ → Except String (List SearchResult))
    (max : ℕ) (l1 l2 : List SearchResult)
    (hddg : ddgF max = .ok l1) (hlt : l1.length < max)
    (hbing : bingF (max - l1.length) = .ok l2) :
    web_search ddgF bingF max
      = ⟨dedupLoop max (l1 ++ l2) [] [], some (max - l1.length)⟩ := by
  unfold web_search
  rw [hddg]
  simp only
  rw [if_pos hlt, hbing]

lemma dedupTake_nodup (max : ℕ) (merged : List SearchResult) :
    (((dedupBySource merged []).take max).map SearchResult.source).Nodup := by
  rw [List.map_take]
  exact List.Nodup.sublist (List.take_sublist _ _) (dedup_sources_nodup merged [])

lemma dedupTake_sublist (max : ℕ) (merged : List SearchResult) :
    List.Sublist ((dedupBySource merged []).take max) merged :=
  (List.take_sublist _ _).trans (dedup_sublist merged [])

/-- Claim C5: DuckDuckGo is queried first; Bing is queried exactly when
DuckDuckGo yielded fewer than maxResults results and only for the remainder;
the merged list is deduplicated by source URL in first-seen order (the kept
results form a sublist of the merged engine outputs with pairwise distinct
sources) and truncated to maxResults; a source URL returned by both engines
yields exactly one entry. -/
theorem C5_web_search_merge :
    (∀ ddgF bingF max_results l1, ddgF max_results = .ok l1 →
      (web_search ddgF bingF max_results).bingReq
        = if l1.length < max_results then some (max_results - l1.length) else none) ∧
    (∀ ddgF bingF max_results,
      ((web_search ddgF bingF max_results).results.map SearchResult.source).Nodup) ∧
    (∀ ddgF bingF max_results,
      (web_search ddgF bingF max_results).results.length ≤ max_results) ∧
    (∀ ddgF bingF max_results l1 l2,
      ddgF max_results = .ok l1 → l1.length < max_results →
      bingF (max_results - l1.length) = .ok l2 →
      List.Sublist (web_search ddgF bingF max_results).results (l1 ++ l2)) ∧
    (∀ ddgF bingF max_results l1 l2 (r1 r2 : SearchResult),
      ddgF max_results = .ok l1 → l1.length < max_results →
      bingF (max_results - l1.length) = .ok l2 →
      r1 ∈ l1 → r2 ∈ l2 → r2.source = r1.source →
      ((web_search ddgF bingF max_results).results.map SearchResult.source).count
        r1.source = 1) := by
  refine ⟨?_, ?_, ?_, ?_, ?_⟩
  · intro ddgF bingF max l1 hddg
    unfold web_search
    rw [hddg]
    dsimp only
    split_ifs with h <;> rfl
  · intro ddgF bingF max
    unfold web_search
    cases hd : ddgF max with
    | error e =>
      dsimp only
      split_ifs <;> (rw [dedupLoop_spec]; exact dedupTake_nodup _ _)
    | ok l1 =>
      dsimp only
      split_ifs <;> (rw [dedupLoop_spec]; exact dedupTake_nodup _ _)
  · intro ddgF bingF max
    unfold web_search
    cases hd : ddgF max with
    | error e =>
      dsimp only
      split_ifs <;>
        (rw [dedupLoop_spec]; exact List.length_take_le _ _)
    | ok l1 =>
      dsimp only
      split_ifs <;>
        (rw [dedupLoop_spec]; exact List.length_take_le _ _)
  · intro ddgF bingF max l1 l2 hddg hlt hbing
    rw [web_search_ok_both ddgF bingF max l1 l2 hddg hlt hbing]
    dsimp only
    rw [dedupLoop_spec]
    exact dedupTake_sublist _ _
  · intro ddgF bingF max l1 l2 r1 r2 hddg hlt hbing hr1 hr2 hsrc
    rw [web_search_ok_both ddgF bingF max l1 l2 hddg hlt hbing]
    dsimp only
    rw [dedupLoop_spec]
    obtain ⟨rest, hdec⟩ := dedup_append_decomp l1 l2 []
    have hsP : r1.source ∈ (dedupBySource l1 []).map SearchResult.source :=
      mem_dedup_sources l1 [] r1.source (List.mem_map_of_mem _ hr1) rfl
    have hPlen : (dedupBySource l1 []).length ≤ l1.length :=
      (dedup_sublist l1 []).length_le
    have htake : (dedupBySource (l1 ++ l2) []).take max
        = dedupBySource l1 [] ++ rest.take (max - (dedupBySource l1 []).length) := by
      rw [hdec, List.take_append_eq_append_take, List.take_of_length_le (by omega)]
    have hmem : r1.source ∈
        ((dedupBySource (l1 ++ l2) []).take max).map SearchResult.source := by
      rw [htake, List.map_append]
      exact List.mem_append_left _ hsP
    exact List.count_eq_one_of_mem (dedupTake_nodup max (l1 ++ l2)) hmem

/-- Witness for claim C5: both engines return the same URL and the merged
result holds it exactly once. -/
theorem C5_web_search_merge_witness :
    ((web_search (fun _ => Except.ok [SearchResult.mk "a".toList "http://x" 1 "A" SourceType.WEB 1])
        (fun _ => Except.ok [SearchResult.mk "b".toList "http://x" (9/10) "B" SourceType.WEB 12])
        3).results.map SearchResult.source).count "http://x" = 1 :=
  C5_web_search_merge.2.2.2.2
    (fun _ => Except.ok [SearchResult.mk "a".toList "http://x" 1 "A" SourceType.WEB 1])
    (fun _ => Except.ok [SearchResult.mk "b".toList "http://x" (9/10) "B" SourceType.WEB 12])
    3 _ _ _ _ rfl (by simp) rfl (List.mem_singleton.mpr rfl)
    (List.mem_singleton.mpr rfl) rfl

/-! ### Question answering (core.AgenticAISystem.ask_question) -/

/-- models.QueryRequest. -/
structure QueryRequest where
  question : PyStr
  task_type : Option TaskType := none
  max_results : ℕ := 5
  include_web : Bool := true
  include_documents : Bool := true

/-- One entry of the sources list returned by ask_question. -/
structure SourceRec where
  type : String
  title : String
  source : String
  score : ℚ
  deriving DecidableEq

/-- The structured response dictionary of ask_question; the wall-clock
processing_time field is omitted from the model. -/
structure Response where
  answer : String
  task_type : String
  confidence : ℕ
  sources : List SourceRec
  has_sources : Bool
  total_sources : ℕ
  deriving DecidableEq

/-- The error response built by the exception handler of ask_question. -/
def errorResponse (e : String) : Response :=
  { answer := "Error processing question: " ++ e
    task_type := "error"
    confidence := 0
    sources := []
    has_sources := false
    total_sources := 0 }

/-- The uppercased source type used in the context labels. -/
def sourceTypeUpper : SourceType → String
  | .DOCUMENT => "DOCUMENT"
  | .WEB => "WEB"

/-- One context piece: a source-type and title label followed by content. -/
def contextPart (r : SearchResult) : PyStr :=
  ("[" ++ sourceTypeUpper r.source_type ++ "] " ++ r.title).data
    ++ '\n' :: r.content ++ ['\n']

/-- The context block: the labelled top max_results results joined by
newlines, or a fixed fallback sentence when no result was retrieved. -/
def contextOf (max_results : ℕ) (all_results : List SearchResult) : PyStr :=
  let parts := (all_results.take max_results).map contextPart
  if parts.isEmpty then "No relevant context found.".data
  else joinSep ['\n'] parts

/-- The successful response assembled by ask_question: the LLM answer over
the context block, a fixed confidence of 85 when any result was retrieved
and 0 otherwise, and the top 5 sources. -/
def buildResponse (llmS : QueryRequest → PyStr → String) (req : QueryRequest)
    (tt : TaskType) (all_results : List SearchResult) : Response :=
  { answer := llmS req (contextOf req.max_results all_results)
    task_type := taskTypeValue tt
    confidence := if all_results.isEmpty then 0 else 85
    sources := (all_results.take 5).map (fun r =>
      ⟨sourceTypeValue r.source_type, r.title, r.source, r.score⟩)
    has_sources := decide (0 < all_results.length)
    total_sources := all_results.length }

/-- The outcome of one ask_question call, with flags recording whether the
document search and the web search were invoked. -/
structure AskOutcome where
  docCalled : Bool
  webCalled : Bool
  response : Response

/-- core.AgenticAISystem.ask_question with the collaborators abstracted:
requestR models the QueryRequest construction, which is fallible;
docS models vector_store.search, which never raises; webS models the web
search session, whose acquisition or use may raise; llmS models
llm_provider.generate_response, which never raises. Document search runs
when include_documents holds and the classified task type is not WEB_SEARCH;
web search runs when include_web holds and the task type is WEB_SEARCH or
HYBRID_SEARCH; the outer handler converts any raised exception into the
structured error response. -/
def ask_question (requestR : Except String QueryRequest)
    (docS : PyStr → ℕ → List SearchResult)
    (webS : PyStr → ℕ → Except String (List SearchResult))
    (llmS : QueryRequest → PyStr → String)
    (question : PyStr) : AskOutcome :=
  match requestR with
  | .error e => ⟨false, false, errorResponse e⟩
  | .ok req =>
    let task_type := classify question
    let docCalled : Bool :=
      decide (req.include_documents = true ∧ task_type ≠ TaskType.WEB_SEARCH)
    let docResults :=
      if req.include_documents = true ∧ task_type ≠ TaskType.WEB_SEARCH then
        docS question req.max_results
      else []
    let webCalled : Bool := decide (req.include_web = true ∧
      (task_type = TaskType.WEB_SEARCH ∨ task_type = TaskType.HYBRID_SEARCH))
    if req.include_web = true ∧
        (task_type = TaskType.WEB_SEARCH ∨ task_type = TaskType.HYBRID_SEARCH) then
      match webS question req.max_results with
      | .error e => ⟨docCalled, webCalled, errorResponse e⟩
      | .ok webResults =>
          ⟨docCalled, webCalled, buildResponse llmS req task_type (docResults ++ webResults)⟩
    else ⟨docCalled, webCalled, buildResponse llmS req task_type docResults⟩

lemma ask_question_docCalled (req : QueryRequest)
    (docS : PyStr → ℕ → List SearchResult)
    (webS : PyStr → ℕ → Except String (List SearchResult))
    (llmS : QueryRequest → PyStr → String) (question : PyStr) :
    (ask_question (.ok req) docS webS llmS question).docCalled
      = decide (req.include_documents = true ∧ classify question ≠ TaskType.WEB_SEARCH) := by
  unfold ask_question
  dsimp only
  split_ifs with h1 h2 h3 <;>
    first
      | rfl
      | (cases webS question req.max_results <;> rfl)

lemma ask_question_webCalled (req : QueryRequest)
    (docS : PyStr → ℕ → List SearchResult)
    (webS : PyStr → ℕ → Except String (List SearchResult))
    (llmS : QueryRequest → PyStr → String) (question : PyStr) :
    (ask_question (.ok req) docS webS llmS question).webCalled
      = decide (req.include_web = true ∧
        (classify question = TaskType.WEB_SEARCH ∨ classify question = TaskType.HYBRID_SEARCH)) := by
  unfold ask_question
  dsimp only
  split_ifs with h1 h2 h3 <;>
    first
      | rfl
      | (cases webS question req.max_results <;> rfl)

/-- Claim C4: ask_question invokes document search iff includeDocuments holds
and the classified task type is not WEB_SEARCH, and invokes web search iff
includeWeb holds and the task type is WEB_SEARCH or HYBRID_SEARCH; with
includeWeb false and task type HYBRID_SEARCH no web request is issued. -/
theorem C4_ask_question_routing
    (requestR : Except String QueryRequest)
    (docS : PyStr → ℕ → List SearchResult)
    (webS : PyStr → ℕ → Except String (List SearchResult))
    (llmS : QueryRequest → PyStr → String)
    (question : PyStr) (req : QueryRequest) (hreq : requestR = .ok req) :
    ((ask_question requestR docS webS llmS question).docCalled = true
        ↔ req.include_documents = true ∧ classify question ≠ TaskType.WEB_SEARCH) ∧
    ((ask_question requestR docS webS llmS question).webCalled = true
        ↔ req.include_web = true ∧
          (classify question = TaskType.WEB_SEARCH ∨
            classify question = TaskType.HYBRID_SEARCH)) ∧
    (req.include_web = false → classify question = TaskType.HYBRID_SEARCH →
      (ask_question requestR docS webS llmS question).webCalled = false) := by
  subst hreq
  refine ⟨?_, ?_, ?_⟩
  · rw [ask_question_docCalled]
    exact decide_eq_true_iff
  · rw [ask_question_webCalled]
    exact decide_eq_true_iff
  · intro hw _
    rw [ask_question_webCalled]
    simp [hw]

/-- Witness for claim C4: with includeWeb false and a question classified as
HYBRID_SEARCH, the web provider is not called. -/
theorem C4_ask_question_routing_witness :
    (ask_question (Except.ok ⟨"Tell me about your company".toList, none, 5, false, true⟩)
      (fun _ _ => []) (fun _ _ => Except.ok []) (fun _ _ => "ans")
      "Tell me about your company".toList).webCalled = false :=
  (C4_ask_question_routing _ _ _ _ _ _ rfl).2.2 rfl (by decide)

/-- Claim C7: any exception raised while answering is converted into the
structured error response, which has zero confidence and an empty sources
list; ask_question is a total function and never propagates a failure. -/
theorem C7_ask_question_catches :
    (∀ requestR docS webS llmS (question : PyStr) (e : String), requestR = .error e →
      (ask_question requestR docS webS llmS question).response = errorResponse e) ∧
    (∀ (req : QueryRequest) docS webS llmS (question : PyStr) (e : String),
      webS question req.max_results = .error e →
      req.include_web = true →
      (classify question = TaskType.WEB_SEARCH ∨
        classify question = TaskType.HYBRID_SEARCH) →
      (ask_question (.ok req) docS webS llmS question).response = errorResponse e) ∧
    (∀ e : String, (errorResponse e).confidence = 0 ∧ (errorResponse e).sources = [] ∧
      (errorResponse e).task_type = "error" ∧ (errorResponse e).has_sources = false ∧
      (errorResponse e).total_sources = 0) := by
  refine ⟨?_, ?_, ?_⟩
  · intro requestR docS webS llmS question e hreq
    subst hreq
    rfl
  · intro req docS webS llmS question e hwebS hw hcl
    unfold ask_question
    dsimp only
    rw [if_pos ⟨hw, hcl⟩, hwebS]
  · intro e
    exact ⟨rfl, rfl, rfl, rfl, rfl⟩

/-- Witness for claim C7: a web-session failure on a hybrid question yields
the structured error response with zero confidence and no sources. -/
theorem C7_ask_question_catches_witness :
    (ask_question (Except.ok ⟨"Tell me about your company".toList, none, 5, true, true⟩)
      (fun _ _ => []) (fun _ _ => Except.error "network down") (fun _ _ => "ans")
      "Tell me about your company".toList).response = errorResponse "network down" :=
  C7_ask_question_catches.2.1 ⟨"Tell me about your company".toList, none, 5, true, true⟩
    (fun _ _ => []) (fun _ _ => Except.error "network down") (fun _ _ => "ans")
    "Tell me about your company".toList "network down" rfl rfl (Or.inr (by decide))

/-! ### Document processing (document_processor.DocumentProcessor) -/

/-- The distinct failures raised by process_document: unsupported extension,
missing file, or all converter strategies exhausted with the last
underlying error carried in the message. -/
inductive ProcError where
  | unsupported
  | notFound
  | allFailed (last : Option String)
  deriving DecidableEq

/-- The document built by process_document: its content, and the metadata
dict modelled as the ordered list of assignments of the dict literal (the
path-derived entries, then processor_used, then the converter metadata);
later bindings override earlier ones on lookup. -/
structure PDocument where
  content : PyStr
  metadata : List (String × String)
  deriving DecidableEq

/-- Python dict lookup over the ordered assignment list of a dict literal:
the last binding of a key wins. -/
def dictGetLast {α : Type} (d : List (String × α)) (k : String) : Option α :=
  (d.reverse.find? (fun p => p.1 == k)).map (fun p => p.2)

/-- The Document constructed for the winning strategy. -/
def mkDocument (fileBase : List (String × String)) (pname : String)
    (content : PyStr) (md : List (String × String)) : PDocument :=
  ⟨content, fileBase ++ [("processor_used", pname)] ++ md⟩

/-- The strategy loop of process_document: call each converter in order;
a raised error is remembered as last_error and the loop continues; a
conversion with empty stripped content is also skipped (without touching
last_error); the first non-empty conversion wins; an exhausted loop raises
the aggregated error naming the last underlying error. -/
def processLoop (fileBase : List (String × String)) :
    List (String × Except String (PyStr × List (String × String))) → Option String →
      Except ProcError PDocument
  | [], last => .error (.allFailed last)
  | (pname, res) :: rest, last =>
    match res with
    | .error e => processLoop fileBase rest (some e)
    | .ok (content, md) =>
      if pyStrip content ≠ [] then .ok (mkDocument fileBase pname content md)
      else processLoop fileBase rest last

/-- DocumentProcessor.process_document: reject unsupported extensions and
missing files, then run the registered converter strategies in order. -/
def process_document (supported fileExists : Bool)
    (fileBase : List (String × String))
    (procs : List (String × Except String (PyStr × List (String × String)))) :
    Except ProcError PDocument :=
  if supported = false then .error .unsupported
  else if fileExists = false then .error .notFound
  else processLoop fileBase procs none

/-- A strategy that does not win: it either raises or converts to
whitespace-only text. -/
def stratFails (p : String × Except String (PyStr × List (String × String))) : Prop :=
  (∃ e, p.2 = Except.error e) ∨
  (∃ c md, p.2 = Except.ok (c, md) ∧ pyStrip c = [])

/-- The value of the last_error variable after the whole loop ran. -/
def lastErrorOf
    (procs : List (String × Except String (PyStr × List (String × String)))) :
    Option String :=
  procs.foldl (fun last p => match p.2 with | .error e => some e | .ok _ => last) none

lemma processLoop_ok (fileBase : List (String × String)) :
    ∀ (procs : List (String × Except String (PyStr × List (String × String))))
      (last : Option String) (d : PDocument),
      processLoop fileBase procs last = .ok d →
      ∃ i : ℕ, ∃ hi : i < procs.length, ∃ content md,
        (procs.get ⟨i, hi⟩).2 = .ok (content, md) ∧ pyStrip content ≠ [] ∧
        (∀ j (hj : j < i), stratFails (procs.get ⟨j, lt_trans hj hi⟩)) ∧
        d = mkDocument fileBase (procs.get ⟨i, hi⟩).1 content md := by
  intro procs
  induction procs with
  | nil => intro last d h; cases h
  | cons p rest ih =>
    obtain ⟨pname, res⟩ := p
    intro last d h
    cases res with
    | error e =>
      simp only [processLoop] at h
      obtain ⟨i, hi, content, md, hok, hne, hjs, hd⟩ := ih (some e) d h
      refine ⟨i + 1, by simpa using Nat.succ_lt_succ hi, content, md, hok, hne, ?_, hd⟩
      intro j hj
      cases j with
      | zero => exact Or.inl ⟨e, rfl⟩
      | succ j' => exact hjs j' (by omega)
    | ok pr =>
      obtain ⟨content, md⟩ := pr
      simp only [processLoop] at h
      by_cases hne : pyStrip content ≠ []
      · rw [if_pos hne] at h
        cases h
        refine ⟨0, by simp, content, md, rfl, hne, ?_, rfl⟩
        intro j hj
        omega
      · rw [if_neg hne] at h
        obtain ⟨i, hi, content', md', hok, hne', hjs, hd⟩ := ih last d h
        refine ⟨i + 1, by simpa using Nat.succ_lt_succ hi, content', md', hok, hne', ?_, hd⟩
        intro j hj
        cases j with
        | zero => exact Or.inr ⟨content, md, rfl, not_not.mp hne⟩
        | succ j' => exact hjs j' (by omega)

lemma processLoop_all_fail (fileBase : List (String × String)) :
    ∀ (procs : List (String × Except String (PyStr × List (String × String))))
      (last : Option String),
      (∀ p ∈ procs, stratFails p) →
      processLoop fileBase procs last = .error (.allFailed
        (procs.foldl (fun l p => match p.2 with | .error e => some e | .ok _ => l) last)) := by
  intro procs
  induction procs with
  | nil => intro last _; rfl
  | cons p rest ih =>
    obtain ⟨pname, res⟩ := p
    intro last hall
    have hhead := hall (pname, res) (List.mem_cons_self _ _)
    cases res with
    | error e =>
      simp only [processLoop, List.foldl_cons]
      exact ih (some e) (fun q hq => hall q (List.mem_cons_of_mem _ hq))
    | ok pr =>
      obtain ⟨content, md⟩ := pr
      have hempty : pyStrip content = [] := by
        rcases hhead with ⟨e, he⟩ | ⟨c, m, hcm, hc⟩
        · cases he
        · obtain ⟨rfl, rfl⟩ : content = c ∧ md = m := by
            have := hcm
            simp only at this
            cases this
            exact ⟨rfl, rfl⟩
          exact hc
      simp only [processLoop, List.foldl_cons]
      rw [if_neg (by simpa using hempty)]
      exact ih last (fun q hq => hall q (List.mem_cons_of_mem _ hq))

lemma mkDocument_processor_used (fileBase : List (String × String))
    (pname : String) (content : PyStr) (md : List (String × String))
    (hmd : ∀ p ∈ md, p.1 ≠ "processor_used") :
    dictGetLast (mkDocument fileBase pname content md).metadata "processor_used"
      = some pname := by
  unfold mkDocument dictGetLast
  simp only [List.reverse_append]
  rw [List.find?_append]
  have h1 : md.reverse.find? (fun p => p.1 == "processor_used") = none := by
    rw [List.find?_eq_none]
    intro x hx
    simpa using hmd x (List.mem_reverse.mp hx)
  rw [h1]
  simp

/-- Claim C8: process_document rejects unsupported extensions and missing
files; a successful call returns the first strategy producing non-empty
stripped text, with every earlier strategy having raised or produced empty
text, the winning content as the document content and the winning strategy
name recorded under processor_used in the metadata (as long as the converter
metadata does not itself rebind that key, which would override it); when every
strategy fails, the aggregated error carries the last underlying error. -/
theorem C8_process_document_strategy_order :
    (∀ fileBase procs, process_document true false fileBase procs
      = .error .notFound) ∧
    (∀ fileExists fileBase procs, process_document false fileExists fileBase procs
      = .error .unsupported) ∧
    (∀ fileBase procs d, process_document true true fileBase procs = .ok d →
      ∃ i : ℕ, ∃ hi : i < procs.length, ∃ content md,
        (procs.get ⟨i, hi⟩).2 = .ok (content, md) ∧ pyStrip content ≠ [] ∧
        (∀ j (hj : j < i), stratFails (procs.get ⟨j, lt_trans hj hi⟩)) ∧
        d.content = content ∧
        ((∀ p ∈ md, p.1 ≠ "processor_used") →
          dictGetLast d.metadata "processor_used" = some (procs.get ⟨i, hi⟩).1)) ∧
    (∀ fileBase procs, (∀ p ∈ procs, stratFails p) →
      process_document true true fileBase procs
        = .error (.allFailed (lastErrorOf procs))) := by
  refine ⟨?_, ?_, ?_, ?_⟩
  · intro fileBase procs; rfl
  · intro fileExists fileBase procs; rfl
  · intro fileBase procs d h
    have h' : processLoop fileBase procs none = .ok d := h
    obtain ⟨i, hi, content, md, hok, hne, hjs, hd⟩ := processLoop_ok fileBase procs none d h'
    refine ⟨i, hi, content, md, hok, hne, hjs, ?_, ?_⟩
    · rw [hd]; rfl
    · intro hmd
      rw [hd]
      exact mkDocument_processor_used fileBase _ content md hmd
  · intro fileBase procs hall
    have := processLoop_all_fail fileBase procs none hall
    exact this

/-- Witness for claim C8: two failing strategies (one raising, one producing
whitespace-only text) yield the aggregated error naming the raised error. -/
theorem C8_process_document_strategy_order_witness :
    process_document true true []
      [("markitdown", Except.error "parse failure"),
       ("text", Except.ok ("   ".toList, []))]
      = .error (.allFailed (lastErrorOf
        [("markitdown", Except.error "parse failure"),
         ("text", Except.ok ("   ".toList, []))])) :=
  C8_process_document_strategy_order.2.2.2 []
    [("markitdown", Except.error "parse failure"),
     ("text", Except.ok ("   ".toList, []))]
    (by
      intro p hp
      rcases List.mem_cons.1 hp with rfl | hp'
      · exact Or.inl ⟨"parse failure", rfl⟩
      · rcases List.mem_singleton.mp hp' with rfl
        exact Or.inr ⟨"   ".toList, [], rfl, by decide⟩)
